import Mathlib

/-!
Verification of the keyword/tag manager (`main.py`).

The Python program is shallowly embedded below.  Python strings are modelled
as `List Char` (`PyStr`), Python lists as Lean lists, the Python `set` used
for the tag index as a duplicate-free-by-insertion list (only membership is
ever observed), and Python dicts (`users`, `existing_map`) as association
lists where a later assignment shadows an earlier one (insertion at the
front, lookup returns the first match).  Per-user persistence is modelled by
a `file` field holding the JSON content last written by `save_data`; the
file-system level (`get_user_data_file`, `load_data`, `save_data`) is
modelled separately as an association of filenames to contents.

The pandas CSV layer is modelled at row level: `pd.read_csv` yields either a
parse failure (`none`, e.g. for the empty string returned by
`convert_db_to_csv` on an empty store) or a `CsvFile` of rows whose cells are
the written strings, an empty `Tags` cell read back as `NaN` being modelled
by `Option.none`.  CSV quoting and pandas numeric type inference are below
this level and are not modelled.  `hashlib.sha256().hexdigest()` is modelled
as an explicit function parameter `mh`.
-/

/-- Python strings, modelled as lists of characters. -/
abbrev PyStr := List Char

/-- The whitespace characters stripped by Python's `str.strip()`
(space, tab, newline, carriage return, vertical tab, form feed). -/
def pyIsSpace (c : Char) : Bool :=
  c = ' ' || c = '\t' || c = '\n' || c = Char.ofNat 13 || c = Char.ofNat 11 || c = Char.ofNat 12

/-- Python `s.strip()`: drop whitespace from both ends. -/
def pyStrip (s : PyStr) : PyStr :=
  List.rdropWhile pyIsSpace (s.dropWhile pyIsSpace)

/-- Python `s.split(',')`. `List.splitOn` has the same semantics as Python
single-character split: it keeps empty pieces and maps `[]` to `[[]]`. -/
def splitOnComma (s : PyStr) : List PyStr :=
  s.splitOn ','

/-- The tag parsing idiom of `main.py`:
`[t.strip() for t in s.split(',') if t.strip()]`. -/
def parse_tags (s : PyStr) : List PyStr :=
  ((splitOnComma s).map pyStrip).filter (fun t => t ≠ [])

/-- The `if x not in l: l.append(x)` idiom, also used to model `set.add` on
the list-modelled tag index (only membership of the index is ever used). -/
def addUnique (l : List PyStr) (x : PyStr) : List PyStr :=
  if x ∈ l then l else l ++ [x]

/-- The body of `add_entry`'s new-tag loop, acting on the pair
`(final_tags, all_tags)`: `if tag not in final_tags: final_tags.append(tag);
all_tags.add(tag)`. -/
def addStep (p : List PyStr × List PyStr) (tag : PyStr) : List PyStr × List PyStr :=
  if tag ∈ p.1 then p else (p.1 ++ [tag], addUnique p.2 tag)

/-- The body of `update_entry`'s new-tag loop:
`if tag and tag not in current_tags: current_tags.append(tag); all_tags.add(tag)`. -/
def updStep (p : List PyStr × List PyStr) (tag : PyStr) : List PyStr × List PyStr :=
  if tag ≠ [] ∧ tag ∉ p.1 then (p.1 ++ [tag], addUnique p.2 tag) else p

/-- Python `", ".join(tags)` from `convert_db_to_csv`: the pieces
interleaved with `", "`. -/
def joinTags : List PyStr → PyStr
  | [] => []
  | [t] => t
  | t :: rest => t ++ ',' :: ' ' :: joinTags rest

/-- The merge loop `for t in new_tags: if t not in current_tags:
current_tags.append(t)`, shared by `update_entry` (for `tags_to_add`) and
`process_csv_upload`. -/
def mergeTags (ts : List PyStr) (new_tags : List PyStr) : List PyStr :=
  new_tags.foldl addUnique ts

/-- The `for t in tags_to_remove: if t in current: current.remove(t)` loop
of `update_entry` (`list.remove` removes the first occurrence). -/
def removeAll (ts rl : List PyStr) : List PyStr :=
  rl.foldl (fun acc t => if t ∈ acc then acc.erase t else acc) ts

/-- One record of the per-user entry store: `{"Keyword": ..., "Tags": [...]}`. -/
structure Entry where
  keyword : PyStr
  tags : List PyStr
deriving DecidableEq

/-- The state of one authenticated session of `main.py`:
`st.session_state.db`, `st.session_state.all_tags`, and the content of the
user's persisted data file (what the last `save_data` wrote). -/
structure Sys where
  db : List Entry
  all_tags : List PyStr
  file : List Entry
deriving DecidableEq

/-- The empty session state: fresh user, empty data file. -/
def emptySys : Sys := { db := [], all_tags := [], file := [] }

/-- `add_entry(keyword, selected_tags, new_tags_input)` of `main.py`.
Returns the new state and `true` on success; `false` models the
`st.error("Please enter a keyword.")` early return (Python's `if not keyword`
is the empty-string test).  `final_tags` starts as a copy of
`selected_tags`; each parsed new tag is appended to it, and added to
`all_tags`, only when not already present.  `save_data` rewrites the file
with the whole db. -/
def add_entry (keyword : PyStr) (selected_tags : List PyStr) (new_tags_input : PyStr)
    (s : Sys) : Sys × Bool :=
  if keyword = [] then (s, false)
  else
    let start := (selected_tags, s.all_tags)
    let res := if new_tags_input = [] then start
               else (parse_tags new_tags_input).foldl addStep start
    let db' := s.db ++ [{ keyword := keyword, tags := res.1 }]
    ({ db := db', all_tags := res.2, file := db' }, true)

/-- `update_entry(index, tags_to_add, new_tags_text, tags_to_remove)` of
`main.py`.  Silently returns the state unchanged when the index is out of
range (the Python guard is `0 <= index < len(db)`; the index is a `Nat`
here, matching the selectbox values `0..len-1`).  Otherwise: parsed new
tags are appended when nonempty and absent (those are also added to
`all_tags`), then `tags_to_add` are appended when absent, then each tag of
`tags_to_remove` that is present is removed (`list.remove`: first
occurrence), and the result is persisted. -/
def update_entry (index : Nat) (tags_to_add : List PyStr) (new_tags_text : PyStr)
    (tags_to_remove : List PyStr) (s : Sys) : Sys :=
  if h : index < s.db.length then
    let e := s.db.get ⟨index, h⟩
    let res := if new_tags_text = [] then (e.tags, s.all_tags)
               else (parse_tags new_tags_text).foldl updStep (e.tags, s.all_tags)
    let ct2 := mergeTags res.1 tags_to_add
    let ct3 := removeAll ct2 tags_to_remove
    let db' := s.db.set index { keyword := e.keyword, tags := ct3 }
    { db := db', all_tags := res.2, file := db' }
  else s

/-- `delete_entry(index)` of `main.py`: silent no-op when out of range,
otherwise `db.pop(index)` followed by `save_data`.  The tag index is not
touched. -/
def delete_entry (index : Nat) (s : Sys) : Sys :=
  if index < s.db.length then
    let db' := s.db.eraseIdx index
    { db := db', all_tags := s.all_tags, file := db' }
  else s

/-- One parsed CSV data row: the `Keyword` cell and the `Tags` cell
(`none` models a missing value, i.e. pandas `NaN`, filtered by the
`pd.notna` check). -/
structure CsvRow where
  keyword : PyStr
  tags : Option PyStr
deriving DecidableEq

/-- A successfully parsed CSV file: which of the two relevant columns the
header declares, and the data rows. -/
structure CsvFile where
  hasKeywordCol : Bool
  hasTagsCol : Bool
  rows : List CsvRow
deriving DecidableEq

/-- The Python dict `existing_map` mapping keywords to indices; a later
assignment shadows an earlier one. -/
abbrev KwMap := List (PyStr × Nat)

/-- Dict assignment `existing_map[kw] = i`. -/
def mapInsert (m : KwMap) (kw : PyStr) (i : Nat) : KwMap := (kw, i) :: m

/-- Dict lookup (first match wins, i.e. the latest assignment). -/
def mapLookup : KwMap → PyStr → Option Nat
  | [], _ => none
  | (k, v) :: rest, kw => if k = kw then some v else mapLookup rest kw

/-- The dict comprehension `{entry['Keyword']: i for i, entry in enumerate(db)}`:
assignments are made in order of increasing index, so for a duplicated
keyword the last index wins; entries further down the list are reached
first by `mapLookup`. -/
def buildMapFrom (i : Nat) : List Entry → KwMap
  | [] => []
  | e :: rest => buildMapFrom (i + 1) rest ++ [(e.keyword, i)]

/-- The index of the last entry of the list equal to `kw`, the value
a Python dict built by the above comprehension associates to `kw`. -/
def lastKwIdx : List PyStr → PyStr → Option Nat
  | [], _ => none
  | k :: rest, kw =>
    match lastKwIdx rest kw with
    | some j => some (j + 1)
    | none => if k = kw then some 0 else none

/-- The loop state of `process_csv_upload`: the session db and tag index
being mutated, the `existing_map` dict, and the two counters. -/
structure ImpState where
  db : List Entry
  all_tags : List PyStr
  map : KwMap
  added : Nat
  updated : Nat
deriving DecidableEq

/-- The `Tags` cell as read by the loop:
`str(row['Tags']) if 'Tags' in df.columns and pd.notna(row['Tags']) else ""`. -/
def rowTagsStr (hasTagsCol : Bool) (r : CsvRow) : PyStr :=
  if hasTagsCol then (match r.tags with | some t => t | none => []) else []

/-- Coherence of the `existing_map` dict with the current db: the dict maps
each keyword present to the index of its last occurrence (what the dict
comprehension builds, maintained by the loop's insertions). -/
def MapSpec (m : KwMap) (db : List Entry) : Prop :=
  ∀ kw, mapLookup m kw = lastKwIdx (db.map Entry.keyword) kw

/-- Simulation between import-loop states: every keyword position the map
knows survives, keeps its keyword, and only gains tags. -/
def Keeps (st st2 : ImpState) : Prop :=
  ∀ kw i, mapLookup st.map kw = some i →
    mapLookup st2.map kw = some i ∧
    ∀ e, st.db[i]? = some e →
      ∃ e2, st2.db[i]? = some e2 ∧ e2.keyword = e.keyword ∧ ∀ t ∈ e.tags, t ∈ e2.tags

/-- A CSV row already absorbed by the store: blank keyword, or the entry at
the index the keyword dict yields already holds all the row's tags. -/
def RowReady (db : List Entry) (ht : Bool) (r : CsvRow) : Prop :=
  pyStrip r.keyword = [] ∨
  ∃ i e, lastKwIdx (db.map Entry.keyword) (pyStrip r.keyword) = some i ∧
    db[i]? = some e ∧ ∀ t ∈ parse_tags (rowTagsStr ht r), t ∈ e.tags

/-- One iteration of the row loop of `process_csv_upload`.  A blank
(stripped-empty) keyword is skipped.  Otherwise the parsed tags are added
to `all_tags`; when the keyword is in `existing_map` the tags are merged
into that entry and `updated_count` is bumped, else a fresh entry is
appended, recorded in the map at index `len(db) - 1`, and `added_count` is
bumped.  (The `existing_map` always holds in-range indices, proved below,
so the inner `Option` match never takes its `none` arm on states arising
in `process_csv_upload`.) -/
def importRow (hasTagsCol : Bool) (st : ImpState) (r : CsvRow) : ImpState :=
  let kw := pyStrip r.keyword
  if kw = [] then st
  else
    let new_tags := parse_tags (rowTagsStr hasTagsCol r)
    let all' := new_tags.foldl addUnique st.all_tags
    match mapLookup st.map kw with
    | some idx =>
      let db' := match st.db[idx]? with
        | some e => st.db.set idx { keyword := e.keyword, tags := mergeTags e.tags new_tags }
        | none => st.db
      { st with all_tags := all', db := db', updated := st.updated + 1 }
    | none =>
      { st with all_tags := all',
                db := st.db ++ [{ keyword := kw, tags := new_tags }],
                map := mapInsert st.map kw st.db.length,
                added := st.added + 1 }

/-- The outcome reported by `process_csv_upload`: the success message with
its two counts, or an error (`st.error`) with no save. -/
inductive ImportResult where
  | ok (added updated : Nat)
  | err
deriving DecidableEq

/-- `process_csv_upload` of `main.py`.  `none` input models `pd.read_csv`
raising (malformed or empty file), caught by the surrounding `except`:
error reported, nothing mutated, nothing saved.  A file without a
`Keyword` column is rejected before any mutation.  Otherwise the row loop
runs over `existing_map` built from the current db, and only after the
whole batch does `save_data` rewrite the file. -/
def process_csv_upload (input : Option CsvFile) (s : Sys) : Sys × ImportResult :=
  match input with
  | none => (s, ImportResult.err)
  | some f =>
    if f.hasKeywordCol = false then (s, ImportResult.err)
    else
      let st0 : ImpState :=
        { db := s.db, all_tags := s.all_tags, map := buildMapFrom 0 s.db,
          added := 0, updated := 0 }
      let st := f.rows.foldl (importRow f.hasTagsCol) st0
      ({ db := st.db, all_tags := st.all_tags, file := st.db },
       ImportResult.ok st.added st.updated)

/-- `convert_db_to_csv` of `main.py`: an empty db yields the empty string
(which `pd.read_csv` cannot parse, hence `none`); otherwise one row per
entry, tags joined by `", "`.  An empty joined string is written as an
empty CSV cell, which pandas reads back as `NaN` (`none`). -/
def convert_db_to_csv (db : List Entry) : Option (List CsvRow) :=
  if db = [] then none
  else some (db.map fun e =>
    { keyword := e.keyword,
      tags := let j := joinTags e.tags; if j = [] then none else some j })

/-- Exporting and re-importing: the CSV written by `convert_db_to_csv`
always carries the `Keyword` and `Tags` header columns. -/
def roundTrip (s : Sys) : Sys × ImportResult :=
  process_csv_upload ((convert_db_to_csv s.db).map
    (fun rows => { hasKeywordCol := true, hasTagsCol := true, rows := rows })) s

/-- The credential store `users.json`: a dict from usernames to password
hashes, modelled as an association list where the latest assignment wins. -/
abbrev Users := List (PyStr × PyStr)

/-- Dict lookup in the credential store. -/
def usersLookup : Users → PyStr → Option PyStr
  | [], _ => none
  | (k, v) :: rest, u => if k = u then some v else usersLookup rest u

/-- `check_hashes(password, hashed_text)` of `main.py`, with the SHA-256
hex digest `make_hashes` abstracted as the parameter `mh`. -/
def check_hashes (mh : PyStr → PyStr) (password hashed_text : PyStr) : Bool :=
  mh password = hashed_text

/-- `save_user(username, password)`: `users[username] = make_hashes(password)`. -/
def save_user (mh : PyStr → PyStr) (users : Users) (username password : PyStr) : Users :=
  (username, mh password) :: users

/-- The credential check of `login_user`:
`username in users and check_hashes(password, users[username])`. -/
def login_user (mh : PyStr → PyStr) (users : Users) (username password : PyStr) : Bool :=
  match usersLookup users username with
  | some h => check_hashes mh password h
  | none => false

/-- `register_user`: error (and unchanged store) when the username exists,
otherwise store the hash.  The `Bool` is `true` on success. -/
def register_user (mh : PyStr → PyStr) (users : Users) (username password : PyStr) :
    Users × Bool :=
  match usersLookup users username with
  | some _ => (users, false)
  | none => (save_user mh users username password, true)

/-- `get_user_data_file(username)` of `main.py`: keep only alphanumeric
characters and `_`/`-`, then wrap as `data_<safe>.json`. -/
def get_user_data_file (username : PyStr) : PyStr :=
  "data_".toList ++ (username.filter fun c => c.isAlphanum || c = '_' || c = '-') ++ ".json".toList

/-- The directory holding the per-user data files, as filename-to-content
associations; a write shadows earlier content of the same filename. -/
abbrev FileSys := List (PyStr × List Entry)

/-- Read a file: latest write wins. -/
def fsRead : FileSys → PyStr → Option (List Entry)
  | [], _ => none
  | (n, c) :: rest, name => if n = name then some c else fsRead rest name

/-- `save_data(username)`: rewrite the user's data file with the session db. -/
def save_data (username : PyStr) (db : List Entry) (fs : FileSys) : FileSys :=
  (get_user_data_file username, db) :: fs

/-- `load_data(username)`: the user's data file, or `[]` when missing
(a malformed-JSON file is also read as `[]`, not modelled separately). -/
def load_data (username : PyStr) (fs : FileSys) : List Entry :=
  match fsRead fs (get_user_data_file username) with
  | some db => db
  | none => []

/-- First-occurrence deduplication of a list of tags (what the spec means
by "the given tags deduplicated"). -/
def dedupKeepFirst (l : List PyStr) : List PyStr :=
  l.foldl addUnique []

/-- Spec predicate: every entry's tag list is duplicate-free. -/
abbrev entriesNodup (db : List Entry) : Prop :=
  ∀ e ∈ db, e.tags.Nodup

/-- Spec predicate (Tag Index invariant): every tag of every entry is in
`all_tags`. -/
abbrev tagInv (s : Sys) : Prop :=
  ∀ e ∈ s.db, ∀ t ∈ e.tags, t ∈ s.all_tags

/-- Two tag lists denote the same tag set. -/
abbrev sameTagSet (a b : List PyStr) : Prop :=
  (∀ t ∈ a, t ∈ b) ∧ (∀ t ∈ b, t ∈ a)

/-- Two stores hold the same set of (keyword, tag-set) pairs, tag order and
entry order aside. -/
abbrev samePairs (db1 db2 : List Entry) : Prop :=
  (∀ e ∈ db1, ∃ f ∈ db2, f.keyword = e.keyword ∧ sameTagSet e.tags f.tags) ∧
  (∀ e ∈ db2, ∃ f ∈ db1, f.keyword = e.keyword ∧ sameTagSet e.tags f.tags)

/-- Well-formedness hypotheses under which the CSV text layer is lossless:
pairwise-distinct keywords, each keyword nonempty and already stripped, each
tag nonempty, stripped and comma-free. -/
abbrev exportSafe (db : List Entry) : Prop :=
  (db.map Entry.keyword).Nodup ∧
  ∀ e ∈ db, pyStrip e.keyword = e.keyword ∧ e.keyword ≠ [] ∧
    ∀ t ∈ e.tags, pyStrip t = t ∧ t ≠ [] ∧ ',' ∉ t

/-- The CSV of the C1 scenario:
`[{"Keyword": "X", "Tags": "a, b"}, {"Keyword": "X", "Tags": "b, c"}]`. -/
def c1Csv : CsvFile :=
  { hasKeywordCol := true, hasTagsCol := true,
    rows := [{ keyword := "X".toList, tags := some "a, b".toList },
             { keyword := "X".toList, tags := some "b, c".toList }] }

/-- A one-row CSV whose `Tags` field repeats a tag: `{"Keyword": "X", "Tags": "a, a"}`. -/
def dupTagCsv : CsvFile :=
  { hasKeywordCol := true, hasTagsCol := true,
    rows := [{ keyword := "X".toList, tags := some "a, a".toList }] }

/-- A two-row CSV with the same keyword on both rows. -/
def dupKwCsv : CsvFile :=
  { hasKeywordCol := true, hasTagsCol := true,
    rows := [{ keyword := "X".toList, tags := some "a".toList },
             { keyword := "X".toList, tags := some "b".toList }] }

/-- The store `[{" X ", []}]`, reachable by `add_entry(" X ", [], "")`
(Python's blank check `if not keyword` does not reject whitespace). -/
def paddedKwSys : Sys := (add_entry " X ".toList [] [] emptySys).1

/-- The store produced by importing `dupTagCsv` into an empty session:
one entry `{"X", ["a", "a"]}` with a duplicated tag. -/
def dupTagSys : Sys := (process_csv_upload (some dupTagCsv) emptySys).1

/-! ### Basic lemmas about the `append-if-absent` and `remove` idioms -/

theorem mem_addUnique {l : List PyStr} {x t : PyStr} :
    t ∈ addUnique l x ↔ t ∈ l ∨ t = x := by
  unfold addUnique
  split
  · rename_i h
    constructor
    · exact fun ht => Or.inl ht
    · rintro (ht | rfl) <;> [exact ht; exact h]
  · simp [List.mem_append]

theorem subset_addUnique (l : List PyStr) (x : PyStr) : l ⊆ addUnique l x := by
  intro t ht; exact mem_addUnique.mpr (Or.inl ht)

theorem self_mem_addUnique (l : List PyStr) (x : PyStr) : x ∈ addUnique l x :=
  mem_addUnique.mpr (Or.inr rfl)

theorem addUnique_of_mem {l : List PyStr} {x : PyStr} (h : x ∈ l) : addUnique l x = l := by
  unfold addUnique; simp [h]

theorem nodup_addUnique {l : List PyStr} {x : PyStr} (h : l.Nodup) :
    (addUnique l x).Nodup := by
  unfold addUnique
  split
  · exact h
  · rename_i hx
    simpa [List.nodup_append, h] using hx

theorem subset_mergeTags (ts new_tags : List PyStr) : ts ⊆ mergeTags ts new_tags := by
  induction new_tags generalizing ts with
  | nil => exact fun t ht => ht
  | cons a rest ih =>
    intro t ht
    exact ih (addUnique ts a) (subset_addUnique ts a ht)

theorem mem_mergeTags_of_mem {new_tags : List PyStr} {t : PyStr} (ts : List PyStr)
    (h : t ∈ new_tags) : t ∈ mergeTags ts new_tags := by
  induction new_tags generalizing ts with
  | nil => cases h
  | cons a rest ih =>
    rcases List.mem_cons.mp h with rfl | h
    · exact subset_mergeTags (addUnique ts t) rest (self_mem_addUnique ts t)
    · exact ih (addUnique ts a) h

theorem mem_mergeTags_iff {ts new_tags : List PyStr} {t : PyStr} :
    t ∈ mergeTags ts new_tags ↔ t ∈ ts ∨ t ∈ new_tags := by
  induction new_tags generalizing ts with
  | nil => simp [mergeTags]
  | cons a rest ih =>
    show t ∈ mergeTags (addUnique ts a) rest ↔ _
    rw [ih, mem_addUnique]
    constructor
    · rintro ((h | rfl) | h)
      · exact Or.inl h
      · exact Or.inr (List.mem_cons_self _ _)
      · exact Or.inr (List.mem_cons_of_mem _ h)
    · rintro (h | h)
      · exact Or.inl (Or.inl h)
      · rcases List.mem_cons.mp h with rfl | h
        · exact Or.inl (Or.inr rfl)
        · exact Or.inr h

theorem nodup_mergeTags {ts : List PyStr} (new_tags : List PyStr) (h : ts.Nodup) :
    (mergeTags ts new_tags).Nodup := by
  induction new_tags generalizing ts with
  | nil => exact h
  | cons a rest ih => exact ih (nodup_addUnique h)

theorem mergeTags_of_subset {ts new_tags : List PyStr} (h : new_tags ⊆ ts) :
    mergeTags ts new_tags = ts := by
  induction new_tags with
  | nil => rfl
  | cons a rest ih =>
    have ha : a ∈ ts := h (List.mem_cons_self _ _)
    show mergeTags (addUnique ts a) rest = ts
    rw [addUnique_of_mem ha]
    exact ih (fun t ht => h (List.mem_cons_of_mem _ ht))

theorem removeAll_subset (ts rl : List PyStr) : removeAll ts rl ⊆ ts := by
  induction rl generalizing ts with
  | nil => exact fun t ht => ht
  | cons a rest ih =>
    show removeAll (if a ∈ ts then ts.erase a else ts) rest ⊆ ts
    intro t ht
    have := ih (if a ∈ ts then ts.erase a else ts) ht
    split at this
    · exact List.erase_subset _ _ this
    · exact this

theorem nodup_removeAll {ts : List PyStr} (rl : List PyStr) (h : ts.Nodup) :
    (removeAll ts rl).Nodup := by
  induction rl generalizing ts with
  | nil => exact h
  | cons a rest ih =>
    show (removeAll (if a ∈ ts then ts.erase a else ts) rest).Nodup
    split
    · exact ih (h.erase a)
    · exact ih h

theorem not_mem_removeAll {ts rl : List PyStr} {t : PyStr} (hnd : ts.Nodup)
    (hmem : t ∈ rl) : t ∉ removeAll ts rl := by
  induction rl generalizing ts with
  | nil => cases hmem
  | cons a rest ih =>
    rcases List.mem_cons.mp hmem with rfl | hmem
    · show t ∉ removeAll (if t ∈ ts then ts.erase t else ts) rest
      intro hin
      have hsub := removeAll_subset (if t ∈ ts then ts.erase t else ts) rest hin
      split at hsub
      · exact absurd hsub (fun hc => (hnd.mem_erase_iff.mp hc).1 rfl)
      · rename_i hts; exact hts hsub
    · show t ∉ removeAll (if a ∈ ts then ts.erase a else ts) rest
      split
      · exact ih (hnd.erase a) hmem
      · exact ih hnd hmem

theorem mem_removeAll_of_not_mem {ts rl : List PyStr} {t : PyStr}
    (hts : t ∈ ts) (hrl : t ∉ rl) : t ∈ removeAll ts rl := by
  induction rl generalizing ts with
  | nil => exact hts
  | cons a rest ih =>
    have hne : t ≠ a := fun hc => hrl (hc ▸ List.mem_cons_self _ _)
    show t ∈ removeAll (if a ∈ ts then ts.erase a else ts) rest
    have hrl' : t ∉ rest := fun hc => hrl (List.mem_cons_of_mem _ hc)
    split
    · exact ih ((List.mem_erase_of_ne hne).mpr hts) hrl'
    · exact ih hts hrl'

theorem set_of_getElem? {α : Type} {db : List α} {i : Nat} {e : α} (h : db[i]? = some e) :
    db.set i e = db := by
  induction db generalizing i with
  | nil => simp at h
  | cons a rest ih =>
    cases i with
    | zero => simp_all
    | succ n =>
      simp only [List.getElem?_cons_succ] at h
      simp [List.set, ih h]

/-! ### Folding `addUnique` -/

theorem foldl_addUnique_of_nodup_append {sel : List PyStr} :
    ∀ {acc : List PyStr}, (acc ++ sel).Nodup → List.foldl addUnique acc sel = acc ++ sel := by
  induction sel with
  | nil => intro acc _; simp
  | cons a rest ih =>
    intro acc h
    have hnotin : a ∉ acc := by
      rcases List.nodup_append.mp h with ⟨_, _, hdisj⟩
      exact fun hc => hdisj hc (List.mem_cons_self _ _)
    have hstep : addUnique acc a = acc ++ [a] := by unfold addUnique; simp [hnotin]
    have h' : ((acc ++ [a]) ++ rest).Nodup := by
      simpa [List.append_assoc] using h
    calc List.foldl addUnique acc (a :: rest)
        = List.foldl addUnique (acc ++ [a]) rest := by rw [List.foldl_cons, hstep]
      _ = (acc ++ [a]) ++ rest := ih h'
      _ = acc ++ a :: rest := by simp [List.append_assoc]

theorem foldl_addUnique_nodup_start {sel : List PyStr} (h : sel.Nodup) (rest : List PyStr) :
    List.foldl addUnique sel rest = dedupKeepFirst (sel ++ rest) := by
  unfold dedupKeepFirst
  rw [List.foldl_append]
  have : List.foldl addUnique [] sel = sel := by
    have h2 := @foldl_addUnique_of_nodup_append sel ([] : List PyStr)
    simpa using h2 h
  rw [this]

/-- The two-component folds of `add_entry` and `update_entry` track
`addUnique` on their first component. -/
theorem pairFoldAdd_fst (l : List PyStr) :
    ∀ (a b : List PyStr), ((l.foldl addStep (a, b)).1) = List.foldl addUnique a l := by
  induction l with
  | nil => intro a b; rfl
  | cons t rest ih =>
    intro a b
    rw [List.foldl_cons, List.foldl_cons]
    by_cases ht : t ∈ a
    · rw [show addStep (a, b) t = (a, b) by unfold addStep; simp [ht], addUnique_of_mem ht]
      exact ih a b
    · rw [show addStep (a, b) t = (a ++ [t], addUnique b t) by unfold addStep; simp [ht]]
      have ha : addUnique a t = a ++ [t] := by unfold addUnique; simp [ht]
      rw [ha]
      exact ih (a ++ [t]) (addUnique b t)

theorem pairFoldUpd_fst (l : List PyStr) (hl : ∀ t ∈ l, t ≠ []) :
    ∀ (a b : List PyStr), ((l.foldl updStep (a, b)).1) = List.foldl addUnique a l := by
  induction l with
  | nil => intro a b; rfl
  | cons t rest ih =>
    intro a b
    have hne : t ≠ [] := hl t (List.mem_cons_self _ _)
    have hrest : ∀ u ∈ rest, u ≠ [] := fun u hu => hl u (List.mem_cons_of_mem _ hu)
    rw [List.foldl_cons, List.foldl_cons]
    by_cases ht : t ∈ a
    · rw [show updStep (a, b) t = (a, b) by unfold updStep; simp [ht], addUnique_of_mem ht]
      exact ih hrest a b
    · rw [show updStep (a, b) t = (a ++ [t], addUnique b t) by
        unfold updStep; simp [hne, ht]]
      have ha : addUnique a t = a ++ [t] := by unfold addUnique; simp [ht]
      rw [ha]
      exact ih hrest (a ++ [t]) (addUnique b t)

theorem parse_tags_nil : parse_tags [] = [] := rfl

theorem parse_tags_ne_nil {s : PyStr} : ∀ t ∈ parse_tags s, t ≠ [] := by
  intro t ht
  have := (List.mem_filter.mp ht).2
  simpa using this

/-! ### Claim C1 -/

/-- Claim C1 counterexample: importing the two rows
`[{"Keyword": "X", "Tags": "a, b"}, {"Keyword": "X", "Tags": "b, c"}]` into
an empty store does NOT report `updatedCount = 0`: the second row hits the
`existing_map` entry added by the first row and increments the updated
counter, so the report is `added = 1, updated = 1`. -/
theorem c1_counts_counterexample :
    (process_csv_upload (some c1Csv) emptySys).2 ≠ ImportResult.ok 1 0 := by decide

/-- Claim C1 (amended): the import yields exactly one entry
`{"X", ["a", "b", "c"]}` and reports `addedCount = 1, updatedCount = 1`
(not 0: the within-batch match is counted as an update). -/
theorem c1_import_merges_within_batch :
    (process_csv_upload (some c1Csv) emptySys).1.db
        = [{ keyword := "X".toList, tags := ["a".toList, "b".toList, "c".toList] }] ∧
      (process_csv_upload (some c1Csv) emptySys).2 = ImportResult.ok 1 1 := by decide

/-! ### Claim C2, counterexample part -/

/-- Claim C2 counterexample: importing the single row
`{"Keyword": "X", "Tags": "a, a"}` into an empty store appends a brand-new
entry whose tag list is the parsed list `["a", "a"]` verbatim — the
new-entry branch of `process_csv_upload` performs no deduplication, so the
resulting store violates the duplicate-free invariant. -/
theorem c2_duplicate_tags_counterexample :
    ¬ entriesNodup dupTagSys.db := by decide

/-! ### Claim C9 -/

/-- Claim C9: the persisted file is written only on successful completion of
the entire import batch.  Every failing run (the only raising point is the
CSV parse, modelled by `none`, or the missing `Keyword` column check — the
row loop itself cannot raise) reports an error and leaves the persisted file
exactly as it was; every successful run persists the final db. -/
theorem c9_save_only_on_success (input : Option CsvFile) (s : Sys) :
    ((process_csv_upload input s).2 = ImportResult.err ∧
      (process_csv_upload input s).1.file = s.file) ∨
    (∃ a u, (process_csv_upload input s).2 = ImportResult.ok a u ∧
      (process_csv_upload input s).1.file = (process_csv_upload input s).1.db) := by
  match input with
  | none => exact Or.inl ⟨rfl, rfl⟩
  | some f =>
    by_cases h : f.hasKeywordCol = false
    · left
      constructor <;> simp [process_csv_upload, h]
    · right
      simp only [process_csv_upload, if_neg h]
      exact ⟨_, _, rfl, trivial⟩

/-! ### Claim C10 -/

/-- Claim C10: the filename sanitization of `get_user_data_file` is not
injective — the distinct usernames `"ab"` and `"a/b"` map to the same data
file, so saving the store of user `"a/b"` and then loading as user `"ab"`
reads (and a save would overwrite) the other user's entries. -/
theorem c10_sanitization_not_injective :
    get_user_data_file "ab".toList = get_user_data_file "a/b".toList ∧
      ("ab".toList : PyStr) ≠ "a/b".toList ∧
      load_data "ab".toList
          (save_data "a/b".toList [{ keyword := "k".toList, tags := ["t".toList] }] [])
        = [{ keyword := "k".toList, tags := ["t".toList] }] := by decide

/-! ### Claim C7 -/

/-- Claim C7: with the SHA-256 digest abstracted as an arbitrary injective
hash function `mh`, `login_user` succeeds iff the username is present and the
hash of the given password equals the stored hash (and fails otherwise —
`login_user` returning `false` is precisely the InvalidCredentials error
path).  Hence after a fresh registration, authentication succeeds with the
registered password and fails for every different password. -/
theorem c7_authenticate_iff (mh : PyStr → PyStr) (hinj : Function.Injective mh)
    (users : Users) (u p : PyStr) :
    (login_user mh users u p = true ↔ usersLookup users u = some (mh p)) ∧
    (usersLookup users u = none →
      login_user mh (register_user mh users u p).1 u p = true ∧
      ∀ q, q ≠ p → login_user mh (register_user mh users u p).1 u q = false) := by
  constructor
  · unfold login_user check_hashes
    cases h : usersLookup users u with
    | none => simp [h]
    | some hv => simp [h, eq_comm]
  · intro hnone
    have hreg : (register_user mh users u p).1 = (u, mh p) :: users := by
      simp [register_user, hnone, save_user]
    constructor
    · rw [hreg]
      unfold login_user usersLookup check_hashes
      simp
    · intro q hq
      rw [hreg]
      unfold login_user usersLookup check_hashes
      simp only [if_pos rfl]
      exact decide_eq_false (fun hc => hq (hinj hc))

/-- Claim C7 witness: with the identity as (injective) hash, registering
user `"u"` with password `"p"` into an empty credential store makes
`login_user` succeed for `("u", "p")` and fail for `("u", "q")`. -/
theorem c7_authenticate_iff_witness :
    (login_user id [] "u".toList "p".toList = true ↔
      usersLookup [] "u".toList = some (id "p".toList)) ∧
    login_user id (register_user id [] "u".toList "p".toList).1 "u".toList "p".toList = true ∧
    login_user id (register_user id [] "u".toList "p".toList).1 "u".toList "q".toList = false := by
  have h := c7_authenticate_iff id (fun a b hab => hab) [] "u".toList "p".toList
  refine ⟨h.1, (h.2 rfl).1, (h.2 rfl).2 "q".toList (by decide)⟩

/-! ### Claim C8 -/

/-- Claim C8: `add_entry` with a blank (empty) keyword reports the error and
leaves the session state — store and persisted file — untouched; with a
non-blank keyword and a duplicate-free selected-tags list (the UI
multiselect always passes distinct tags) it appends exactly one new entry
whose tag list is the first-occurrence deduplication of selected tags
followed by the parsed new tags, and persists the whole store. -/
theorem c8_add_entry_spec (kw : PyStr) (sel : List PyStr) (txt : PyStr) (s : Sys) :
    (kw = [] → add_entry kw sel txt s = (s, false)) ∧
    (kw ≠ [] → sel.Nodup →
      (add_entry kw sel txt s).1.db
          = s.db ++ [{ keyword := kw, tags := dedupKeepFirst (sel ++ parse_tags txt) }] ∧
      (add_entry kw sel txt s).1.file = (add_entry kw sel txt s).1.db ∧
      (add_entry kw sel txt s).2 = true) := by
  constructor
  · intro hkw
    unfold add_entry
    rw [if_pos hkw]
  · intro hkw hnd
    have hfst : (if txt = [] then (sel, s.all_tags)
        else (parse_tags txt).foldl addStep (sel, s.all_tags)).1
          = dedupKeepFirst (sel ++ parse_tags txt) := by
      by_cases htxt : txt = []
      · rw [if_pos htxt]
        show sel = dedupKeepFirst (sel ++ parse_tags txt)
        rw [htxt, parse_tags_nil, List.append_nil]
        unfold dedupKeepFirst
        exact (@foldl_addUnique_of_nodup_append sel [] (by simpa using hnd)).symm
      · rw [if_neg htxt, pairFoldAdd_fst, foldl_addUnique_nodup_start hnd]
    refine ⟨?_, ?_, ?_⟩
    · simp only [add_entry, if_neg hkw]
      rw [hfst]
    · simp only [add_entry, if_neg hkw]
    · simp only [add_entry, if_neg hkw]

/-- Claim C8 witness: `add_entry("k", ["a"], "b, a")` on the empty session
appends the single entry `{"k", ["a", "b"]}` and persists it, while a blank
keyword leaves the empty session untouched. -/
theorem c8_add_entry_spec_witness :
    add_entry [] ["a".toList] [] emptySys = (emptySys, false) ∧
    (add_entry "k".toList ["a".toList] "b, a".toList emptySys).1.db
        = [{ keyword := "k".toList,
             tags := dedupKeepFirst (["a".toList] ++ parse_tags "b, a".toList) }] ∧
    (add_entry "k".toList ["a".toList] "b, a".toList emptySys).1.file
        = (add_entry "k".toList ["a".toList] "b, a".toList emptySys).1.db ∧
    (add_entry "k".toList ["a".toList] "b, a".toList emptySys).2 = true := by
  have h1 := (c8_add_entry_spec [] ["a".toList] [] emptySys).1 rfl
  have h2 := (c8_add_entry_spec "k".toList ["a".toList] "b, a".toList emptySys).2
    (by decide) (by decide)
  exact ⟨h1, by simpa [emptySys] using h2.1, h2.2.1, h2.2.2⟩

/-! ### Joint invariants of the tag folds -/

theorem mem_of_some_getElem {db : List Entry} {i : Nat} {e : Entry}
    (h : db[i]? = some e) : e ∈ db := by
  rcases List.getElem?_eq_some_iff.mp h with ⟨hlt, he⟩
  exact he ▸ List.getElem_mem hlt

theorem pairFoldAdd_inv (l : List PyStr) :
    ∀ a b, (∀ t ∈ a, t ∈ b) →
      (∀ t ∈ (l.foldl addStep (a, b)).1, t ∈ (l.foldl addStep (a, b)).2) ∧
      (∀ t ∈ b, t ∈ (l.foldl addStep (a, b)).2) := by
  induction l with
  | nil => exact fun a b h => ⟨h, fun t ht => ht⟩
  | cons x rest ih =>
    intro a b h
    rw [List.foldl_cons]
    by_cases hx : x ∈ a
    · rw [show addStep (a, b) x = (a, b) by unfold addStep; simp [hx]]
      exact ih a b h
    · rw [show addStep (a, b) x = (a ++ [x], addUnique b x) by unfold addStep; simp [hx]]
      have h' : ∀ t ∈ a ++ [x], t ∈ addUnique b x := by
        intro t ht
        rcases List.mem_append.mp ht with ht | ht
        · exact subset_addUnique b x (h t ht)
        · rcases List.mem_singleton.mp ht with rfl
          exact self_mem_addUnique _ _
      refine ⟨(ih _ _ h').1, fun t ht => (ih _ _ h').2 t (subset_addUnique b x ht)⟩

theorem pairFoldUpd_inv (l : List PyStr) :
    ∀ a b, (∀ t ∈ a, t ∈ b) →
      (∀ t ∈ (l.foldl updStep (a, b)).1, t ∈ (l.foldl updStep (a, b)).2) ∧
      (∀ t ∈ b, t ∈ (l.foldl updStep (a, b)).2) := by
  induction l with
  | nil => exact fun a b h => ⟨h, fun t ht => ht⟩
  | cons x rest ih =>
    intro a b h
    rw [List.foldl_cons]
    by_cases hx : x ≠ [] ∧ x ∉ a
    · rw [show updStep (a, b) x = (a ++ [x], addUnique b x) by unfold updStep; simp [hx.1, hx.2]]
      have h' : ∀ t ∈ a ++ [x], t ∈ addUnique b x := by
        intro t ht
        rcases List.mem_append.mp ht with ht | ht
        · exact subset_addUnique b x (h t ht)
        · rcases List.mem_singleton.mp ht with rfl
          exact self_mem_addUnique _ _
      refine ⟨(ih _ _ h').1, fun t ht => (ih _ _ h').2 t (subset_addUnique b x ht)⟩
    · rw [show updStep (a, b) x = (a, b) by unfold updStep; rw [if_neg hx]]
      exact ih a b h

/-- The invariant of the import loop: every tag of every entry is in the
running tag index; one row preserves it and only grows the index. -/
theorem importRow_inv (ht : Bool) (st : ImpState) (r : CsvRow)
    (hinv : ∀ e ∈ st.db, ∀ t ∈ e.tags, t ∈ st.all_tags) :
    (∀ e ∈ (importRow ht st r).db, ∀ t ∈ e.tags, t ∈ (importRow ht st r).all_tags) ∧
    (∀ t ∈ st.all_tags, t ∈ (importRow ht st r).all_tags) := by
  unfold importRow
  by_cases hkw : pyStrip r.keyword = []
  · rw [if_pos hkw]
    exact ⟨hinv, fun t ht => ht⟩
  · rw [if_neg hkw]
    have hsub : ∀ t ∈ st.all_tags,
        t ∈ mergeTags st.all_tags (parse_tags (rowTagsStr ht r)) :=
      fun t h => subset_mergeTags _ _ h
    have hnew : ∀ t ∈ parse_tags (rowTagsStr ht r),
        t ∈ mergeTags st.all_tags (parse_tags (rowTagsStr ht r)) :=
      fun t h => mem_mergeTags_of_mem _ h
    cases hm : mapLookup st.map (pyStrip r.keyword) with
    | some idx =>
      simp only [hm]
      cases hdb : st.db[idx]? with
      | some e =>
        simp only [hdb]
        constructor
        · intro e2 he2 t hte2
          rcases List.mem_or_eq_of_mem_set he2 with he2 | rfl
          · exact hsub t (hinv e2 he2 t hte2)
          · rcases mem_mergeTags_iff.mp hte2 with hte | hte
            · exact hsub t (hinv e (mem_of_some_getElem hdb) t hte)
            · exact hnew t hte
        · exact hsub
      | none =>
        simp only [hdb]
        exact ⟨fun e2 he2 t hte2 => hsub t (hinv e2 he2 t hte2), hsub⟩
    | none =>
      simp only [hm]
      constructor
      · intro e2 he2 t hte2
        rcases List.mem_append.mp he2 with he2 | he2
        · exact hsub t (hinv e2 he2 t hte2)
        · rcases List.mem_singleton.mp he2 with rfl
          exact hnew t hte2
      · exact hsub

theorem importFold_inv (ht : Bool) (rows : List CsvRow) :
    ∀ st, (∀ e ∈ st.db, ∀ t ∈ e.tags, t ∈ st.all_tags) →
      (∀ e ∈ (rows.foldl (importRow ht) st).db, ∀ t ∈ e.tags,
        t ∈ (rows.foldl (importRow ht) st).all_tags) ∧
      (∀ t ∈ st.all_tags, t ∈ (rows.foldl (importRow ht) st).all_tags) := by
  induction rows with
  | nil => exact fun st h => ⟨h, fun t ht => ht⟩
  | cons r rest ih =>
    intro st h
    rw [List.foldl_cons]
    have hstep := importRow_inv ht st r h
    have hrest := ih (importRow ht st r) hstep.1
    exact ⟨hrest.1, fun t htag => hrest.2 t (hstep.2 t htag)⟩

/-! ### Characterizations of the operations on their main branches -/

theorem add_entry_nonblank {kw : PyStr} (hkw : kw ≠ []) (sel : List PyStr) (txt : PyStr)
    (s : Sys) :
    add_entry kw sel txt s =
      (let res := if txt = [] then (sel, s.all_tags)
                  else (parse_tags txt).foldl addStep (sel, s.all_tags)
       let db' := s.db ++ [{ keyword := kw, tags := res.1 }]
       ({ db := db', all_tags := res.2, file := db' }, true)) := by
  unfold add_entry
  rw [if_neg hkw]

theorem update_entry_in_range {i : Nat} {s : Sys} (h : i < s.db.length) (a : List PyStr)
    (txt : PyStr) (r : List PyStr) :
    update_entry i a txt r s =
      (let e := s.db.get ⟨i, h⟩
       let res := if txt = [] then (e.tags, s.all_tags)
                  else (parse_tags txt).foldl updStep (e.tags, s.all_tags)
       let db' := s.db.set i { keyword := e.keyword, tags := removeAll (mergeTags res.1 a) r }
       { db := db', all_tags := res.2, file := db' }) := by
  unfold update_entry
  rw [dif_pos h]

theorem update_entry_out_of_range {i : Nat} {s : Sys} (h : s.db.length ≤ i) (a : List PyStr)
    (txt : PyStr) (r : List PyStr) :
    update_entry i a txt r s = s := by
  unfold update_entry
  rw [dif_neg (Nat.not_lt.mpr h)]

theorem process_csv_upload_some {f : CsvFile} (h : f.hasKeywordCol = true) (s : Sys) :
    process_csv_upload (some f) s =
      (let st := f.rows.foldl (importRow f.hasTagsCol)
         { db := s.db, all_tags := s.all_tags, map := buildMapFrom 0 s.db,
           added := 0, updated := 0 }
       ({ db := st.db, all_tags := st.all_tags, file := st.db },
        ImportResult.ok st.added st.updated)) := by
  simp only [process_csv_upload]
  rw [if_neg (by simp [h])]

/-! ### Duplicate-freedom preservation -/

theorem importRow_nodup (ht : Bool) (st : ImpState) (r : CsvRow)
    (hst : entriesNodup st.db) (hrow : (parse_tags (rowTagsStr ht r)).Nodup) :
    entriesNodup (importRow ht st r).db := by
  unfold importRow
  by_cases hkw : pyStrip r.keyword = []
  · rw [if_pos hkw]
    exact hst
  · rw [if_neg hkw]
    cases hm : mapLookup st.map (pyStrip r.keyword) with
    | some idx =>
      simp only [hm]
      cases hdb : st.db[idx]? with
      | some e =>
        simp only [hdb]
        intro e2 he2
        rcases List.mem_or_eq_of_mem_set he2 with he2 | rfl
        · exact hst e2 he2
        · exact nodup_mergeTags _ (hst e (mem_of_some_getElem hdb))
      | none =>
        simp only [hdb]
        exact hst
    | none =>
      simp only [hm]
      intro e2 he2
      rcases List.mem_append.mp he2 with he2 | he2
      · exact hst e2 he2
      · rcases List.mem_singleton.mp he2 with rfl
        exact hrow

theorem importFold_nodup (ht : Bool) (rows : List CsvRow) :
    ∀ st, entriesNodup st.db →
      (∀ r ∈ rows, (parse_tags (rowTagsStr ht r)).Nodup) →
      entriesNodup ((rows.foldl (importRow ht) st).db) := by
  induction rows with
  | nil => exact fun st h _ => h
  | cons r rest ih =>
    intro st h hrows
    rw [List.foldl_cons]
    exact ih _ (importRow_nodup ht st r h (hrows r (List.mem_cons_self _ _)))
      (fun q hq => hrows q (List.mem_cons_of_mem _ hq))

/-! ### Claim C2, amended part -/

/-- Claim C2 (amended): duplicate-freedom of every entry's tag list is
preserved by `add_entry` when the selected tags are themselves distinct (as
the UI multiselect guarantees), by `update_entry` unconditionally, and by
`process_csv_upload` provided each row's parsed `Tags` list is itself
duplicate-free; it is NOT an unconditional invariant — a row whose `Tags`
field repeats a tag (e.g. `"a, a"`) creates a brand-new entry whose tag list
keeps the duplicates (see the counterexample). -/
theorem c2_nodup_preservation :
    (∀ kw sel txt s, entriesNodup s.db → sel.Nodup →
      entriesNodup (add_entry kw sel txt s).1.db) ∧
    (∀ i a txt r s, entriesNodup s.db → entriesNodup (update_entry i a txt r s).db) ∧
    (∀ f s, entriesNodup s.db →
      (∀ r ∈ f.rows, (parse_tags (rowTagsStr f.hasTagsCol r)).Nodup) →
      entriesNodup (process_csv_upload (some f) s).1.db) := by
  refine ⟨?_, ?_, ?_⟩
  · intro kw sel txt s hdb hnd
    by_cases hkw : kw = []
    · unfold add_entry
      rw [if_pos hkw]
      exact hdb
    · rw [add_entry_nonblank hkw]
      intro e2 he2
      rcases List.mem_append.mp he2 with he2 | he2
      · exact hdb e2 he2
      · rcases List.mem_singleton.mp he2 with rfl
        show (if txt = [] then (sel, s.all_tags)
              else (parse_tags txt).foldl addStep (sel, s.all_tags)).1.Nodup
        by_cases htxt : txt = []
        · rw [if_pos htxt]
          exact hnd
        · rw [if_neg htxt, pairFoldAdd_fst]
          exact nodup_mergeTags _ hnd
  · intro i a txt r s hdb
    by_cases h : i < s.db.length
    · rw [update_entry_in_range h]
      intro e2 he2
      rcases List.mem_or_eq_of_mem_set he2 with he2 | rfl
      · exact hdb e2 he2
      · refine nodup_removeAll _ (nodup_mergeTags _ ?_)
        show (if txt = [] then ((s.db.get ⟨i, h⟩).tags, s.all_tags)
              else (parse_tags txt).foldl updStep ((s.db.get ⟨i, h⟩).tags, s.all_tags)).1.Nodup
        have hge : (s.db.get ⟨i, h⟩).tags.Nodup := hdb _ (List.get_mem s.db i h)
        by_cases htxt : txt = []
        · rw [if_pos htxt]
          exact hge
        · rw [if_neg htxt, pairFoldUpd_fst _ parse_tags_ne_nil]
          exact nodup_mergeTags _ hge
    · rw [update_entry_out_of_range (Nat.not_lt.mp h)]
      exact hdb
  · intro f s hdb hrows
    cases hcol : f.hasKeywordCol with
    | false =>
      simp only [process_csv_upload]
      rw [if_pos hcol]
      exact hdb
    | true =>
      rw [process_csv_upload_some hcol]
      exact importFold_nodup f.hasTagsCol f.rows _ hdb hrows

/-- Claim C2 witness: applying the preservation theorem to concrete calls —
adding entry `"K"` with distinct selected tags, updating index 0, and
importing a duplicate-free row — keeps every entry's tag list
duplicate-free. -/
theorem c2_nodup_preservation_witness :
    entriesNodup (add_entry "K".toList ["a".toList] "b".toList emptySys).1.db ∧
    entriesNodup (update_entry 0 ["c".toList] [] []
      { db := [{ keyword := "K".toList, tags := ["x".toList] }],
        all_tags := [], file := [] }).db ∧
    entriesNodup (process_csv_upload (some dupKwCsv) emptySys).1.db := by
  refine ⟨?_, ?_, ?_⟩
  · exact c2_nodup_preservation.1 "K".toList ["a".toList] "b".toList emptySys
      (by decide) (by decide)
  · exact c2_nodup_preservation.2.1 0 ["c".toList] [] []
      { db := [{ keyword := "K".toList, tags := ["x".toList] }],
        all_tags := [], file := [] } (by decide)
  · exact c2_nodup_preservation.2.2 dupKwCsv emptySys (by decide) (by decide)

/-! ### Claim C3 -/

/-- Claim C3: starting from a state satisfying the Tag Index invariant
(every tag of every entry is in `all_tags`, as `login_user`'s rebuild
establishes) and given arguments the UI can produce (tags selected from the
index), each of `add_entry`, `update_entry`, `delete_entry` and
`process_csv_upload` preserves the invariant, and none of them ever removes
a tag from the index: `delete_entry` leaves `all_tags` exactly unchanged and
the others only grow it. -/
theorem c3_tag_index_invariant :
    (∀ kw sel txt s, tagInv s → (∀ t ∈ sel, t ∈ s.all_tags) →
      tagInv (add_entry kw sel txt s).1 ∧
      ∀ t ∈ s.all_tags, t ∈ (add_entry kw sel txt s).1.all_tags) ∧
    (∀ i a txt r s, tagInv s → (∀ t ∈ a, t ∈ s.all_tags) →
      tagInv (update_entry i a txt r s) ∧
      ∀ t ∈ s.all_tags, t ∈ (update_entry i a txt r s).all_tags) ∧
    (∀ i s, tagInv s → tagInv (delete_entry i s) ∧ (delete_entry i s).all_tags = s.all_tags) ∧
    (∀ f s, tagInv s → tagInv (process_csv_upload (some f) s).1 ∧
      ∀ t ∈ s.all_tags, t ∈ (process_csv_upload (some f) s).1.all_tags) := by
  refine ⟨?_, ?_, ?_, ?_⟩
  · intro kw sel txt s hinv hsel
    by_cases hkw : kw = []
    · unfold add_entry
      rw [if_pos hkw]
      exact ⟨hinv, fun t ht => ht⟩
    · rw [add_entry_nonblank hkw]
      by_cases htxt : txt = []
      · simp only [if_pos htxt]
        constructor
        · intro e he t hte
          rcases List.mem_append.mp he with he | he
          · exact hinv e he t hte
          · rcases List.mem_singleton.mp he with rfl
            exact hsel t hte
        · exact fun t ht => ht
      · simp only [if_neg htxt]
        have hp := pairFoldAdd_inv (parse_tags txt) sel s.all_tags hsel
        constructor
        · intro e he t hte
          rcases List.mem_append.mp he with he | he
          · exact hp.2 t (hinv e he t hte)
          · rcases List.mem_singleton.mp he with rfl
            exact hp.1 t hte
        · exact hp.2
  · intro i a txt r s hinv ha
    by_cases h : i < s.db.length
    · rw [update_entry_in_range h]
      have hget : ∀ t ∈ (s.db.get ⟨i, h⟩).tags, t ∈ s.all_tags :=
        hinv _ (List.get_mem s.db i h)
      have hres : (∀ t ∈ (if txt = [] then ((s.db.get ⟨i, h⟩).tags, s.all_tags)
            else (parse_tags txt).foldl updStep ((s.db.get ⟨i, h⟩).tags, s.all_tags)).1,
            t ∈ (if txt = [] then ((s.db.get ⟨i, h⟩).tags, s.all_tags)
            else (parse_tags txt).foldl updStep ((s.db.get ⟨i, h⟩).tags, s.all_tags)).2) ∧
          (∀ t ∈ s.all_tags,
            t ∈ (if txt = [] then ((s.db.get ⟨i, h⟩).tags, s.all_tags)
            else (parse_tags txt).foldl updStep ((s.db.get ⟨i, h⟩).tags, s.all_tags)).2) := by
        by_cases htxt : txt = []
        · simp only [if_pos htxt]
          exact ⟨hget, fun t ht => ht⟩
        · simp only [if_neg htxt]
          exact pairFoldUpd_inv (parse_tags txt) _ _ hget
      constructor
      · intro e he t hte
        rcases List.mem_or_eq_of_mem_set he with he | rfl
        · exact hres.2 t (hinv e he t hte)
        · have hte2 := removeAll_subset _ r hte
          rcases mem_mergeTags_iff.mp hte2 with hte2 | hte2
          · exact hres.1 t hte2
          · exact hres.2 t (ha t hte2)
      · exact hres.2
    · rw [update_entry_out_of_range (Nat.not_lt.mp h)]
      exact ⟨hinv, fun t ht => ht⟩
  · intro i s hinv
    unfold delete_entry
    by_cases h : i < s.db.length
    · rw [if_pos h]
      exact ⟨fun e he t hte => hinv e (List.mem_of_mem_eraseIdx he) t hte, rfl⟩
    · rw [if_neg h]
      exact ⟨hinv, rfl⟩
  · intro f s hinv
    cases hcol : f.hasKeywordCol with
    | false =>
      simp only [process_csv_upload]
      rw [if_pos hcol]
      exact ⟨hinv, fun t ht => ht⟩
    | true =>
      rw [process_csv_upload_some hcol]
      have hf := importFold_inv f.hasTagsCol f.rows
        { db := s.db, all_tags := s.all_tags, map := buildMapFrom 0 s.db,
          added := 0, updated := 0 } hinv
      exact ⟨hf.1, hf.2⟩

/-- Claim C3 witness: on the concrete invariant-satisfying state with one
entry `{"K", ["a"]}` and index `{"a"}`, each operation preserves the
invariant and the index never loses a tag. -/
theorem c3_tag_index_invariant_witness :
    (tagInv (add_entry "L".toList ["a".toList] "b".toList
      { db := [{ keyword := "K".toList, tags := ["a".toList] }],
        all_tags := ["a".toList],
        file := [{ keyword := "K".toList, tags := ["a".toList] }] }).1) ∧
    (tagInv (update_entry 0 ["a".toList] [] ["a".toList]
      { db := [{ keyword := "K".toList, tags := ["a".toList] }],
        all_tags := ["a".toList],
        file := [{ keyword := "K".toList, tags := ["a".toList] }] })) ∧
    ((delete_entry 0
      { db := [{ keyword := "K".toList, tags := ["a".toList] }],
        all_tags := ["a".toList],
        file := [{ keyword := "K".toList, tags := ["a".toList] }] }).all_tags
      = ["a".toList]) ∧
    (tagInv (process_csv_upload (some dupKwCsv)
      { db := [{ keyword := "K".toList, tags := ["a".toList] }],
        all_tags := ["a".toList],
        file := [{ keyword := "K".toList, tags := ["a".toList] }] }).1) := by
  refine ⟨?_, ?_, ?_, ?_⟩
  · exact (c3_tag_index_invariant.1 "L".toList ["a".toList] "b".toList _
      (by decide) (by decide)).1
  · exact (c3_tag_index_invariant.2.1 0 ["a".toList] [] ["a".toList] _
      (by decide) (by decide)).1
  · exact (c3_tag_index_invariant.2.2.1 0 _ (by decide)).2
  · exact (c3_tag_index_invariant.2.2.2 dupKwCsv _ (by decide)).1

/-! ### Claim C4 -/

/-- Claim C4 counterexample: on the reachable store `[{"X", ["a", "a"]}]`
(created by importing a row with `Tags` `"a, a"`), calling `update_entry`
with `"a"` in both `tags_to_add` and `tags_to_remove` leaves `"a"` PRESENT:
the tag is not appended (already present) and `list.remove` deletes only the
first of its two occurrences, contradicting the claim that such a tag is
absent afterwards. -/
theorem c4_add_remove_counterexample :
    (update_entry 0 ["a".toList] [] ["a".toList] dupTagSys).db
        = [{ keyword := "X".toList, tags := ["a".toList] }] ∧
      "a".toList ∈ ((update_entry 0 ["a".toList] [] ["a".toList] dupTagSys).db.headD
        { keyword := [], tags := [] }).tags := by decide

/-- Claim C4 (amended): `update_entry` with an out-of-range index is a
silent no-op (session state and persisted file unchanged); on an in-range
index whose entry's tag list is duplicate-free, a tag occurring in both
`tags_to_add` and `tags_to_remove` is absent afterwards (add happens before
remove); and `add("ML", ["ai"])` followed by
`update(0, tagsToAdd = ["nlp"], tagsToRemove = ["ai"])` yields exactly the
entry `{"ML", ["nlp"]}`. -/
theorem c4_update_entry_amended :
    (∀ i a txt r s, s.db.length ≤ i → update_entry i a txt r s = s) ∧
    (∀ i a txt r s e t, s.db[i]? = some e → e.tags.Nodup → t ∈ a → t ∈ r →
      ∀ e2, (update_entry i a txt r s).db[i]? = some e2 → t ∉ e2.tags) ∧
    ((update_entry 0 ["nlp".toList] [] ["ai".toList]
        (add_entry "ML".toList ["ai".toList] [] emptySys).1).db
      = [{ keyword := "ML".toList, tags := ["nlp".toList] }]) := by
  refine ⟨?_, ?_, by decide⟩
  · intro i a txt r s h
    exact update_entry_out_of_range h a txt r
  · intro i a txt r s e t hget hnd hta htr e2 hget2 hte2
    have hlt : i < s.db.length := (List.getElem?_eq_some_iff.mp hget).1
    rw [update_entry_in_range hlt] at hget2
    simp only [List.getElem?_set_self hlt, Option.some.injEq] at hget2
    subst hget2
    simp only [] at hte2
    have hnd1 : (if txt = [] then ((s.db.get ⟨i, hlt⟩).tags, s.all_tags)
        else (parse_tags txt).foldl updStep ((s.db.get ⟨i, hlt⟩).tags, s.all_tags)).1.Nodup := by
      have hetags : (s.db.get ⟨i, hlt⟩).tags.Nodup := by
        have hge : s.db.get ⟨i, hlt⟩ = e := by
          rcases List.getElem?_eq_some_iff.mp hget with ⟨_, he⟩
          simpa [List.get_eq_getElem] using he
        rw [hge]
        exact hnd
      by_cases htxt : txt = []
      · rw [if_pos htxt]
        exact hetags
      · rw [if_neg htxt, pairFoldUpd_fst _ parse_tags_ne_nil]
        exact nodup_mergeTags _ hetags
    exact not_mem_removeAll (nodup_mergeTags _ hnd1) htr hte2

/-- Claim C4 witness: the out-of-range call on the empty session is the
identity, and on the duplicate-free entry `{"K", ["x", "a"]}` the tag `"a"`
occurring in both the add-list and the remove-list is absent afterwards. -/
theorem c4_update_entry_amended_witness :
    (update_entry 0 [] [] [] emptySys = emptySys) ∧
    ((update_entry 0 ["a".toList] [] ["a".toList]
        { db := [{ keyword := "K".toList, tags := ["x".toList, "a".toList] }],
          all_tags := [], file := [] }).db[0]?
      = some { keyword := "K".toList, tags := ["x".toList] }) ∧
    "a".toList ∉ (Entry.tags { keyword := "K".toList, tags := ["x".toList] }) := by
  refine ⟨c4_update_entry_amended.1 0 [] [] [] emptySys (by decide), by decide, ?_⟩
  exact c4_update_entry_amended.2.1 0 ["a".toList] [] ["a".toList]
    { db := [{ keyword := "K".toList, tags := ["x".toList, "a".toList] }],
      all_tags := [], file := [] }
    { keyword := "K".toList, tags := ["x".toList, "a".toList] } "a".toList
    (by decide) (by decide) (by decide) (by decide)
    { keyword := "K".toList, tags := ["x".toList] } (by decide)

/-! ### The keyword dict tracks last occurrences -/

theorem lastKwIdx_some {ks : List PyStr} {kw : PyStr} {i : Nat}
    (h : lastKwIdx ks kw = some i) : ks[i]? = some kw := by
  induction ks generalizing i with
  | nil => simp [lastKwIdx] at h
  | cons k rest ih =>
    unfold lastKwIdx at h
    cases hr : lastKwIdx rest kw with
    | some j =>
      rw [hr] at h
      rcases Option.some.injEq _ _ |>.mp h with rfl
      simpa using ih hr
    | none =>
      rw [hr] at h
      by_cases hk : k = kw
      · rw [if_pos hk] at h
        rcases Option.some.injEq _ _ |>.mp h with rfl
        simpa using hk
      · rw [if_neg hk] at h
        cases h

theorem lastKwIdx_none {ks : List PyStr} {kw : PyStr} :
    lastKwIdx ks kw = none ↔ kw ∉ ks := by
  induction ks with
  | nil => simp [lastKwIdx]
  | cons k rest ih =>
    unfold lastKwIdx
    cases hr : lastKwIdx rest kw with
    | some j =>
      constructor
      · intro h
        exact absurd h (by simp)
      · intro h
        exfalso
        have hrm : kw ∉ rest := fun hc => h (List.mem_cons_of_mem _ hc)
        rw [ih.mpr hrm] at hr
        exact absurd hr (by simp)
    | none =>
      have hrest : kw ∉ rest := ih.mp hr
      by_cases hk : k = kw
      · constructor
        · intro h
          rw [if_pos hk] at h
          exact absurd h (by simp)
        · intro h
          exact absurd (show kw ∈ k :: rest by rw [hk]; exact List.mem_cons_self kw rest) h
      · constructor
        · intro _ hmem
          rcases List.mem_cons.mp hmem with heq | hmem
          · exact hk heq.symm
          · exact hrest hmem
        · intro _
          rw [if_neg hk]

theorem lastKwIdx_append_single (ks : List PyStr) (k kw : PyStr) :
    lastKwIdx (ks ++ [k]) kw =
      if k = kw then some ks.length else lastKwIdx ks kw := by
  induction ks with
  | nil =>
    by_cases hk : k = kw <;> simp [lastKwIdx, hk]
  | cons a rest ih =>
    show (match lastKwIdx (rest ++ [k]) kw with
      | some j => some (j + 1)
      | none => if a = kw then some 0 else none) = _
    rw [ih]
    by_cases hk : k = kw
    · rw [if_pos hk, if_pos hk]
      rfl
    · rw [if_neg hk, if_neg hk]
      rfl

theorem lastKwIdx_of_nodup {ks : List PyStr} (hnd : ks.Nodup) {j : Nat} {kw : PyStr}
    (h : ks[j]? = some kw) : lastKwIdx ks kw = some j := by
  induction ks generalizing j with
  | nil => cases j <;> simp at h
  | cons k rest ih =>
    cases j with
    | zero =>
      simp only [List.getElem?_cons_zero, Option.some.injEq] at h
      subst h
      have hnotin : k ∉ rest := (List.nodup_cons.mp hnd).1
      unfold lastKwIdx
      rw [lastKwIdx_none.mpr hnotin, if_pos rfl]
    | succ n =>
      simp only [List.getElem?_cons_succ] at h
      have := ih (List.nodup_cons.mp hnd).2 h
      unfold lastKwIdx
      rw [this]

theorem mapLookup_append (m1 m2 : KwMap) (kw : PyStr) :
    mapLookup (m1 ++ m2) kw =
      match mapLookup m1 kw with
      | some v => some v
      | none => mapLookup m2 kw := by
  induction m1 with
  | nil => rfl
  | cons p rest ih =>
    show (if p.1 = kw then some p.2 else mapLookup (rest ++ m2) kw) = _
    by_cases hp : p.1 = kw
    · rw [if_pos hp]
      show _ = (match (if p.1 = kw then some p.2 else mapLookup rest kw) with
        | some v => some v | none => mapLookup m2 kw)
      rw [if_pos hp]
    · rw [if_neg hp, ih]
      show _ = (match (if p.1 = kw then some p.2 else mapLookup rest kw) with
        | some v => some v | none => mapLookup m2 kw)
      rw [if_neg hp]

theorem buildMapFrom_lookup (db : List Entry) :
    ∀ (i : Nat) (kw : PyStr),
      mapLookup (buildMapFrom i db) kw
        = (lastKwIdx (db.map Entry.keyword) kw).map (fun j => i + j) := by
  induction db with
  | nil => intro i kw; rfl
  | cons e rest ih =>
    intro i kw
    show mapLookup (buildMapFrom (i + 1) rest ++ [(e.keyword, i)]) kw = _
    rw [mapLookup_append, ih (i + 1) kw]
    show _ = (match lastKwIdx (rest.map Entry.keyword) kw with
      | some j => some (j + 1)
      | none => if e.keyword = kw then some 0 else none).map (fun j => i + j)
    cases hr : lastKwIdx (rest.map Entry.keyword) kw with
    | some j =>
      show (some ((i + 1) + j)) = some (i + (j + 1))
      rw [Nat.add_assoc, Nat.add_comm 1 j]
    | none =>
      show mapLookup [(e.keyword, i)] kw = _
      by_cases he : e.keyword = kw
      · show (if e.keyword = kw then some i else none) = _
        rw [if_pos he, if_pos he]
        rfl
      · show (if e.keyword = kw then some i else none) = _
        rw [if_neg he, if_neg he]
        rfl

theorem buildMap_MapSpec (db : List Entry) : MapSpec (buildMapFrom 0 db) db := by
  intro kw
  rw [buildMapFrom_lookup db 0 kw]
  cases lastKwIdx (db.map Entry.keyword) kw with
  | some j => show some (0 + j) = some j; rw [Nat.zero_add]
  | none => rfl

/-! ### The import loop simulates: map stays coherent, entries only grow -/

theorem keeps_refl (st : ImpState) : Keeps st st := by
  intro kw i h
  exact ⟨h, fun e he => ⟨e, he, rfl, fun t ht => ht⟩⟩

theorem keeps_trans {st1 st2 st3 : ImpState} (h12 : Keeps st1 st2) (h23 : Keeps st2 st3) :
    Keeps st1 st3 := by
  intro kw i h
  rcases h12 kw i h with ⟨hm2, hdb2⟩
  rcases h23 kw i hm2 with ⟨hm3, hdb3⟩
  refine ⟨hm3, fun e he => ?_⟩
  rcases hdb2 e he with ⟨e2, he2, hkw2, htags2⟩
  rcases hdb3 e2 he2 with ⟨e3, he3, hkw3, htags3⟩
  exact ⟨e3, he3, hkw3.trans hkw2, fun t ht => htags3 t (htags2 t ht)⟩

theorem getElem?_map_keyword {db : List Entry} {i : Nat} {e : Entry}
    (h : db[i]? = some e) : (db.map Entry.keyword)[i]? = some e.keyword := by
  rw [List.getElem?_map, h]
  rfl

theorem importRow_MapSpec (ht : Bool) (st : ImpState) (r : CsvRow)
    (h : MapSpec st.map st.db) :
    MapSpec (importRow ht st r).map (importRow ht st r).db := by
  unfold importRow
  by_cases hkw : pyStrip r.keyword = []
  · rw [if_pos hkw]
    exact h
  · rw [if_neg hkw]
    cases hm : mapLookup st.map (pyStrip r.keyword) with
    | some idx =>
      simp only [hm]
      cases hdb : st.db[idx]? with
      | some e =>
        simp only [hdb]
        intro kw2
        have : ((st.db.set idx
            { keyword := e.keyword,
              tags := mergeTags e.tags (parse_tags (rowTagsStr ht r)) }).map Entry.keyword)
            = st.db.map Entry.keyword := by
          rw [List.map_set]
          show (st.db.map Entry.keyword).set idx e.keyword = st.db.map Entry.keyword
          exact set_of_getElem? (getElem?_map_keyword hdb)
        rw [this]
        exact h kw2
      | none =>
        simp only [hdb]
        exact h
    | none =>
      simp only [hm]
      intro kw2
      show (if pyStrip r.keyword = kw2 then some st.db.length
            else mapLookup st.map kw2) = _
      rw [List.map_append]
      show _ = lastKwIdx (st.db.map Entry.keyword ++ [pyStrip r.keyword]) kw2
      rw [lastKwIdx_append_single]
      by_cases hk2 : pyStrip r.keyword = kw2
      · rw [if_pos hk2, if_pos hk2, List.length_map]
      · rw [if_neg hk2, if_neg hk2]
        exact h kw2

theorem importRow_Keeps (ht : Bool) (st : ImpState) (r : CsvRow) :
    Keeps st (importRow ht st r) := by
  unfold importRow
  by_cases hkw : pyStrip r.keyword = []
  · rw [if_pos hkw]
    exact keeps_refl st
  · rw [if_neg hkw]
    cases hm : mapLookup st.map (pyStrip r.keyword) with
    | some idx =>
      simp only [hm]
      cases hdb : st.db[idx]? with
      | some e =>
        simp only [hdb]
        intro kw2 i hi
        refine ⟨hi, fun e2 he2 => ?_⟩
        by_cases hidx : idx = i
        · subst hidx
          rw [hdb] at he2
          rcases Option.some.injEq _ _ |>.mp he2 with rfl
          have hlt : idx < st.db.length := (List.getElem?_eq_some_iff.mp hdb).1
          refine ⟨_, List.getElem?_set_self (by rwa [] ), rfl, ?_⟩
          exact fun t ht => subset_mergeTags _ _ ht
        · exact ⟨e2, by rw [List.getElem?_set_ne hidx]; exact he2, rfl, fun t ht => ht⟩
      | none =>
        simp only [hdb]
        exact keeps_refl st
    | none =>
      simp only [hm]
      intro kw2 i hi
      have hk2 : pyStrip r.keyword ≠ kw2 := fun hc => by
        rw [hc] at hm
        rw [hm] at hi
        cases hi
      constructor
      · show (if pyStrip r.keyword = kw2 then some st.db.length
              else mapLookup st.map kw2) = some i
        rw [if_neg hk2]
        exact hi
      · intro e he
        have hlt : i < st.db.length := (List.getElem?_eq_some_iff.mp he).1
        refine ⟨e, ?_, rfl, fun t ht => ht⟩
        rw [List.getElem?_append]
        rw [if_pos hlt]
        exact he

theorem importFold_MapSpec (ht : Bool) (rows : List CsvRow) :
    ∀ st, MapSpec st.map st.db →
      MapSpec ((rows.foldl (importRow ht) st)).map ((rows.foldl (importRow ht) st)).db := by
  induction rows with
  | nil => exact fun st h => h
  | cons r rest ih =>
    intro st h
    rw [List.foldl_cons]
    exact ih _ (importRow_MapSpec ht st r h)

theorem importFold_Keeps (ht : Bool) (rows : List CsvRow) :
    ∀ st, MapSpec st.map st.db → Keeps st (rows.foldl (importRow ht) st) := by
  induction rows with
  | nil => exact fun st _ => keeps_refl st
  | cons r rest ih =>
    intro st h
    rw [List.foldl_cons]
    exact keeps_trans (importRow_Keeps ht st r) (ih _ (importRow_MapSpec ht st r h))

/-! ### Rows already absorbed by the store -/

theorem importRow_ready (ht : Bool) (st : ImpState) (r : CsvRow)
    (h : MapSpec st.map st.db) :
    RowReady (importRow ht st r).db ht r := by
  unfold importRow
  by_cases hkw : pyStrip r.keyword = []
  · rw [if_pos hkw]
    exact Or.inl hkw
  · rw [if_neg hkw]
    cases hm : mapLookup st.map (pyStrip r.keyword) with
    | some idx =>
      simp only [hm]
      cases hdb : st.db[idx]? with
      | some e =>
        simp only [hdb]
        right
        refine ⟨idx, Entry.mk e.keyword (mergeTags e.tags (parse_tags (rowTagsStr ht r))),
          ?_, ?_, ?_⟩
        · have hmap : ((st.db.set idx
              { keyword := e.keyword,
                tags := mergeTags e.tags (parse_tags (rowTagsStr ht r)) }).map Entry.keyword)
              = st.db.map Entry.keyword := by
            rw [List.map_set]
            show (st.db.map Entry.keyword).set idx e.keyword = st.db.map Entry.keyword
            exact set_of_getElem? (getElem?_map_keyword hdb)
          rw [hmap, ← h (pyStrip r.keyword)]
          exact hm
        · have hlt : idx < st.db.length := (List.getElem?_eq_some_iff.mp hdb).1
          exact List.getElem?_set_self (by rwa [])
        · exact fun t ht2 => mem_mergeTags_of_mem _ ht2
      | none =>
        exfalso
        have hlast := (h (pyStrip r.keyword)) ▸ hm
        have := lastKwIdx_some hlast
        have hlt : idx < (st.db.map Entry.keyword).length :=
          (List.getElem?_eq_some_iff.mp this).1
        rw [List.length_map] at hlt
        rw [List.getElem?_eq_getElem hlt] at hdb
        cases hdb
    | none =>
      simp only [hm]
      right
      refine ⟨st.db.length, Entry.mk (pyStrip r.keyword) (parse_tags (rowTagsStr ht r)),
        ?_, ?_, fun t ht2 => ht2⟩
      · rw [List.map_append]
        show lastKwIdx (st.db.map Entry.keyword ++ [pyStrip r.keyword]) _ = _
        rw [lastKwIdx_append_single, if_pos rfl, List.length_map]
      · exact List.getElem?_concat_length _ _

theorem ready_of_keeps {st st2 : ImpState} {ht : Bool} {r : CsvRow}
    (h1 : RowReady st.db ht r) (hs : MapSpec st.map st.db) (hk : Keeps st st2)
    (hs2 : MapSpec st2.map st2.db) : RowReady st2.db ht r := by
  rcases h1 with h1 | ⟨i, e, hlast, hdb, htags⟩
  · exact Or.inl h1
  · have hm : mapLookup st.map (pyStrip r.keyword) = some i := (hs _).symm ▸ hlast
    rcases hk _ _ hm with ⟨hm2, hgrow⟩
    rcases hgrow e hdb with ⟨e2, he2, hkw2, htags2⟩
    right
    exact ⟨i, e2, (hs2 _) ▸ hm2, he2, fun t ht2 => htags2 t (htags t ht2)⟩

theorem importFold_ready (ht : Bool) (rows : List CsvRow) :
    ∀ st, MapSpec st.map st.db →
      ∀ r ∈ rows, RowReady ((rows.foldl (importRow ht) st)).db ht r := by
  induction rows with
  | nil => intro st _ r hr; cases hr
  | cons q rest ih =>
    intro st h r hr
    rw [List.foldl_cons]
    rcases List.mem_cons.mp hr with rfl | hr
    · exact ready_of_keeps (importRow_ready ht st r h) (importRow_MapSpec ht st r h)
        (importFold_Keeps ht rest _ (importRow_MapSpec ht st r h))
        (importFold_MapSpec ht rest _ (importRow_MapSpec ht st r h))
    · exact ih _ (importRow_MapSpec ht st q h) r hr

/-- A row the store has already absorbed is a no-op on db, map and
added-count; it bumps updated-count for a non-blank keyword. -/
theorem importRow_of_ready (ht : Bool) (st : ImpState) (r : CsvRow)
    (hm : MapSpec st.map st.db) (hr : RowReady st.db ht r) :
    (importRow ht st r).db = st.db ∧ (importRow ht st r).map = st.map ∧
    (importRow ht st r).added = st.added ∧
    (importRow ht st r).updated
      = st.updated + (if pyStrip r.keyword = [] then 0 else 1) := by
  unfold importRow
  by_cases hkw : pyStrip r.keyword = []
  · rw [if_pos hkw]
    simp [hkw]
  · rw [if_neg hkw]
    rcases hr with hr | ⟨i, e, hlast, hdb, htags⟩
    · exact absurd hr hkw
    · have hmi : mapLookup st.map (pyStrip r.keyword) = some i := (hm _).symm ▸ hlast
      simp only [hmi, hdb]
      have hmerge : mergeTags e.tags (parse_tags (rowTagsStr ht r)) = e.tags :=
        mergeTags_of_subset htags
      rw [hmerge]
      have heta : { keyword := e.keyword, tags := e.tags } = e := rfl
      rw [heta, set_of_getElem? hdb]
      simp [hkw]

theorem importFold_of_ready (ht : Bool) (rows : List CsvRow) :
    ∀ st, MapSpec st.map st.db → (∀ r ∈ rows, RowReady st.db ht r) →
      ((rows.foldl (importRow ht) st)).db = st.db ∧
      ((rows.foldl (importRow ht) st)).added = st.added ∧
      ((rows.foldl (importRow ht) st)).updated
        = st.updated + (rows.filter (fun r => pyStrip r.keyword ≠ [])).length := by
  induction rows with
  | nil => intro st _ _; exact ⟨rfl, rfl, by simp⟩
  | cons q rest ih =>
    intro st h hready
    rw [List.foldl_cons]
    have hq := importRow_of_ready ht st q h (hready q (List.mem_cons_self _ _))
    have hms1 : MapSpec (importRow ht st q).map (importRow ht st q).db := by
      rw [hq.1, hq.2.1]
      exact h
    have hready1 : ∀ r ∈ rest, RowReady (importRow ht st q).db ht r := by
      rw [hq.1]
      exact fun r hr => hready r (List.mem_cons_of_mem _ hr)
    have hrest := ih (importRow ht st q) hms1 hready1
    refine ⟨hrest.1.trans hq.1, hrest.2.1.trans hq.2.2.1, ?_⟩
    rw [hrest.2.2, hq.2.2.2, List.filter_cons]
    by_cases hkq : pyStrip q.keyword = []
    · simp [hkq]
    · have hd : (decide (pyStrip q.keyword ≠ []) = true) := by simp [hkq]
      rw [if_pos hd]
      simp only [List.length_cons, if_neg hkq]
      omega

/-! ### Claim C6 -/

/-- Claim C6 counterexample: the CSV `[{X, a}, {X, b}]` imports one distinct
keyword (N = 1), but re-importing it reports `updated = 2` — the loop counts
one update per non-blank row, not per keyword, so the second import does not
report `N` updated. -/
theorem c6_per_row_count_counterexample :
    (process_csv_upload (some dupKwCsv)
        (process_csv_upload (some dupKwCsv) emptySys).1).2
      ≠ ImportResult.ok 0 1 := by decide

/-- Claim C6 (amended): importing any CSV (with a `Keyword` column) a second
time into the store produced by the first import leaves the whole entry list
— hence every keyword's tag set — unchanged, and the second import reports 0
added and one update for every row with a non-blank keyword (equal to N only
when the non-blank keywords are pairwise distinct). -/
theorem c6_import_idempotent (ht : Bool) (rows : List CsvRow) (s : Sys) :
    (process_csv_upload (some (CsvFile.mk true ht rows))
        (process_csv_upload (some (CsvFile.mk true ht rows)) s).1).1.db
      = (process_csv_upload (some (CsvFile.mk true ht rows)) s).1.db ∧
    (process_csv_upload (some (CsvFile.mk true ht rows))
        (process_csv_upload (some (CsvFile.mk true ht rows)) s).1).2
      = ImportResult.ok 0 ((rows.filter (fun r => pyStrip r.keyword ≠ [])).length) := by
  have hms0 : MapSpec
      (ImpState.mk s.db s.all_tags (buildMapFrom 0 s.db) 0 0).map
      (ImpState.mk s.db s.all_tags (buildMapFrom 0 s.db) 0 0).db :=
    buildMap_MapSpec s.db
  have hready : ∀ r ∈ rows,
      RowReady ((rows.foldl (importRow ht)
        (ImpState.mk s.db s.all_tags (buildMapFrom 0 s.db) 0 0))).db ht r :=
    importFold_ready ht rows _ hms0
  have hms0' : MapSpec
      (buildMapFrom 0 ((rows.foldl (importRow ht)
        (ImpState.mk s.db s.all_tags (buildMapFrom 0 s.db) 0 0))).db)
      ((rows.foldl (importRow ht)
        (ImpState.mk s.db s.all_tags (buildMapFrom 0 s.db) 0 0))).db :=
    buildMap_MapSpec _
  have hid := importFold_of_ready ht rows
    (ImpState.mk
      ((rows.foldl (importRow ht) (ImpState.mk s.db s.all_tags (buildMapFrom 0 s.db) 0 0))).db
      ((rows.foldl (importRow ht)
        (ImpState.mk s.db s.all_tags (buildMapFrom 0 s.db) 0 0))).all_tags
      (buildMapFrom 0 ((rows.foldl (importRow ht)
        (ImpState.mk s.db s.all_tags (buildMapFrom 0 s.db) 0 0))).db) 0 0)
    hms0' hready
  simp only [@process_csv_upload_some (CsvFile.mk true ht rows) rfl]
  exact ⟨hid.1, by rw [hid.2.1, hid.2.2, Nat.zero_add]⟩

/-! ### The CSV tag field round-trips for comma-free stripped tags -/

theorem splitOnComma_join (tags : List PyStr) :
    ∀ t : PyStr, ',' ∉ t → (∀ u ∈ tags, ',' ∉ u) →
    splitOnComma (joinTags (t :: tags)) = t :: tags.map (fun u => ' ' :: u) := by
  induction tags with
  | nil =>
    intro t hc _
    show List.splitOnP (fun c => c == ',') t = [t]
    exact List.splitOnP_eq_single _ _ (fun x hx => by
      simp only [beq_iff_eq]
      exact fun hx2 => hc (hx2 ▸ hx))
  | cons u rest ih =>
    intro t hc hall
    show List.splitOnP (fun c => c == ',')
        (t ++ ',' :: ' ' :: joinTags (u :: rest)) = _
    rw [List.splitOnP_first _ t
      (fun x hx => by
        simp only [beq_iff_eq]
        exact fun hx2 => hc (hx2 ▸ hx))
      ',' (by decide) (' ' :: joinTags (u :: rest))]
    rw [List.splitOnP_cons]
    rw [if_neg (by decide)]
    have hrest := ih u (hall u (List.mem_cons_self _ _))
      (fun v hv => hall v (List.mem_cons_of_mem _ hv))
    show t :: List.modifyHead (List.cons ' ')
        (splitOnComma (joinTags (u :: rest))) = _
    rw [hrest, List.modifyHead_cons]
    rfl

theorem joinTags_ne_nil {t : PyStr} (tags : List PyStr) (ht : t ≠ []) :
    joinTags (t :: tags) ≠ [] := by
  cases tags with
  | nil => exact ht
  | cons u rest =>
    show t ++ ',' :: ' ' :: joinTags (u :: rest) ≠ []
    simp

theorem pyStrip_cons_space (u : PyStr) : pyStrip (' ' :: u) = pyStrip u := by
  unfold pyStrip
  rw [List.dropWhile_cons, if_pos (by decide)]

theorem strip_space_map (rest : List PyStr) (h : ∀ u ∈ rest, pyStrip u = u) :
    rest.map (pyStrip ∘ fun u => ' ' :: u) = rest := by
  induction rest with
  | nil => rfl
  | cons v vs ihv =>
    rw [List.map_cons, show (pyStrip ∘ fun u => ' ' :: u) v = v by
      show pyStrip (' ' :: v) = v
      rw [pyStrip_cons_space, h v (List.mem_cons_self _ _)]]
    rw [ihv (fun u hu => h u (List.mem_cons_of_mem _ hu))]

theorem parse_join (tags : List PyStr)
    (h : ∀ u ∈ tags, pyStrip u = u ∧ u ≠ [] ∧ ',' ∉ u) :
    parse_tags (joinTags tags) = tags := by
  cases tags with
  | nil => rfl
  | cons t rest =>
    have hsplit := splitOnComma_join rest t (h t (List.mem_cons_self _ _)).2.2
      (fun u hu => (h u (List.mem_cons_of_mem _ hu)).2.2)
    unfold parse_tags
    rw [hsplit, List.map_cons, List.map_map]
    rw [strip_space_map rest (fun u hu => (h u (List.mem_cons_of_mem _ hu)).1)]
    rw [(h t (List.mem_cons_self _ _)).1]
    rw [List.filter_eq_self.mpr]
    intro a ha
    simp only [ne_eq, decide_not]
    rcases List.mem_cons.mp ha with rfl | ha
    · simpa using (h a (List.mem_cons_self _ _)).2.1
    · simpa using (h a (List.mem_cons_of_mem _ ha)).2.1

theorem export_row_tags (e : Entry)
    (h : ∀ u ∈ e.tags, pyStrip u = u ∧ u ≠ [] ∧ ',' ∉ u) :
    parse_tags (rowTagsStr true
      (CsvRow.mk e.keyword
        (if joinTags e.tags = [] then none else some (joinTags e.tags)))) = e.tags := by
  cases htags : e.tags with
  | nil => rfl
  | cons t rest =>
    have hall : ∀ u ∈ t :: rest, pyStrip u = u ∧ u ≠ [] ∧ ',' ∉ u := htags ▸ h
    have hne : joinTags (t :: rest) ≠ [] :=
      joinTags_ne_nil rest (hall t (List.mem_cons_self _ _)).2.1
    rw [if_neg hne]
    show parse_tags (joinTags (t :: rest)) = t :: rest
    exact parse_join _ hall

/-! ### Claim C5 -/

theorem export_rows_ready (db : List Entry) (hsafe : exportSafe db) :
    ∀ r ∈ db.map (fun e => CsvRow.mk e.keyword
      (if joinTags e.tags = [] then none else some (joinTags e.tags))),
      RowReady db true r := by
  intro r hr
  rcases List.mem_map.mp hr with ⟨e, he, rfl⟩
  rcases List.mem_iff_getElem?.mp he with ⟨j, hj⟩
  rcases hsafe.2 e he with ⟨hstrip, hne, htags⟩
  right
  refine ⟨j, e, ?_, hj, ?_⟩
  · show lastKwIdx (db.map Entry.keyword) (pyStrip e.keyword) = some j
    rw [hstrip]
    exact lastKwIdx_of_nodup hsafe.1 (getElem?_map_keyword hj)
  · show ∀ t ∈ parse_tags (rowTagsStr true (CsvRow.mk e.keyword
      (if joinTags e.tags = [] then none else some (joinTags e.tags)))), t ∈ e.tags
    rw [export_row_tags e htags]
    exact fun t ht => ht

theorem samePairs_refl (db : List Entry) : samePairs db db := by
  constructor <;>
    exact fun e he => ⟨e, he, rfl, fun t ht => ht, fun t ht => ht⟩

/-- Claim C5 counterexample: the store `[{" X ", []}]` — reachable via
`add_entry(" X ", [], "")` since Python's blank test accepts whitespace —
does not survive the export/import round trip: the import strips the
keyword to `"X"`, misses the existing `" X "` entry, and appends a second
entry, so the set of (keyword, tag-set) pairs changes. -/
theorem c5_roundtrip_counterexample :
    ¬ samePairs paddedKwSys.db (roundTrip paddedKwSys).1.db := by decide

/-- Claim C5 (amended): the export/import round trip leaves an empty store
unchanged (the empty export is the empty string, whose parse fails and
changes nothing), and leaves any store with pairwise-distinct, stripped,
non-empty keywords and stripped, non-empty, comma-free tags entirely
unchanged — hence with the same set of (keyword, tag-set) pairs.  Keywords
that are not strip-invariant break the claim (see the counterexample). -/
theorem c5_export_import_roundtrip :
    (∀ s : Sys, s.db = [] → roundTrip s = (s, ImportResult.err)) ∧
    (∀ s : Sys, exportSafe s.db →
      (roundTrip s).1.db = s.db ∧ samePairs s.db (roundTrip s).1.db) := by
  have hempty : ∀ s : Sys, s.db = [] → roundTrip s = (s, ImportResult.err) := by
    intro s h
    unfold roundTrip convert_db_to_csv
    rw [if_pos h]
    rfl
  refine ⟨hempty, ?_⟩
  intro s hsafe
  by_cases hnil : s.db = []
  · rw [hempty s hnil]
    exact ⟨rfl, samePairs_refl s.db⟩
  · have hconv : convert_db_to_csv s.db
        = some (s.db.map (fun e => CsvRow.mk e.keyword
            (if joinTags e.tags = [] then none else some (joinTags e.tags)))) := by
      unfold convert_db_to_csv
      rw [if_neg hnil]
    have hdb : (roundTrip s).1.db = s.db := by
      unfold roundTrip
      rw [hconv]
      show (process_csv_upload (some (CsvFile.mk true true
        (s.db.map (fun e => CsvRow.mk e.keyword
          (if joinTags e.tags = [] then none else some (joinTags e.tags)))))) s).1.db = s.db
      rw [process_csv_upload_some rfl]
      exact (importFold_of_ready true _
        (ImpState.mk s.db s.all_tags (buildMapFrom 0 s.db) 0 0)
        (buildMap_MapSpec s.db)
        (export_rows_ready s.db hsafe)).1
    exact ⟨hdb, hdb ▸ samePairs_refl s.db⟩

/-- Claim C5 witness: the empty round trip is the identity with a reported
parse error, and the round trip of the well-formed store
`[{"k", ["a", "b"]}]` returns its entry list unchanged. -/
theorem c5_export_import_roundtrip_witness :
    roundTrip emptySys = (emptySys, ImportResult.err) ∧
    (roundTrip (Sys.mk [Entry.mk "k".toList ["a".toList, "b".toList]] []
        [Entry.mk "k".toList ["a".toList, "b".toList]])).1.db
      = [Entry.mk "k".toList ["a".toList, "b".toList]] := by
  constructor
  · exact c5_export_import_roundtrip.1 emptySys rfl
  · exact (c5_export_import_roundtrip.2
      (Sys.mk [Entry.mk "k".toList ["a".toList, "b".toList]] []
        [Entry.mk "k".toList ["a".toList, "b".toList]]) (by decide)).1
